import Mathlib

/-!
Verification of the `PathLengthDirectInfSampler` core
(src/ompl/src/ompl/base/samplers/informed/PathLengthDirectInfSampler.h).

The repository ships only the declarations of this class; every behavioral
definition below is therefore modelled from the design document, faithful to
its words: the informed sub-block is an n-dimensional Euclidean space, the
prolate-hyperspheroid (PHS) transform is rotation * diag(radii) + centroid
with major radius d/2 and all minor radii sqrt(d^2/4 - minDist^2/4), and the
public sampling entry points are bounded rejection loops over composed draws.
Randomness is made explicit as input streams of draws.
-/

namespace Ompl

open scoped Classical

noncomputable section

/-- Modelled from the spec: Euclidean distance on the informed sub-block,
written as the explicit square-root of a sum of squared coordinate
differences, the way the missing implementation would compute it. -/
def euclDist {n : ℕ} (x y : Fin n → ℝ) : ℝ :=
  Real.sqrt (∑ i, (x i - y i) ^ 2)

/-- Modelled from the spec: the focus pair ("two points in the informed
sub-block (e.g. start position, goal position)"), immutable for the
sampler's lifetime. -/
structure Foci (n : ℕ) where
  f1 : Fin n → ℝ
  f2 : Fin n → ℝ

/-- Modelled from the spec: the minimum possible cost, "scalar = distance
between the two foci; a structural constant of the pair". -/
def Foci.minDist {n : ℕ} (F : Foci n) : ℝ := euclDist F.f1 F.f2

/-- Modelled from the spec: the ellipsoid centroid, "midpoint of foci". -/
def Foci.centroid {n : ℕ} (F : Foci n) : Fin n → ℝ :=
  fun i => (F.f1 i + F.f2 i) / 2

/-- Modelled from the spec: the common minor radius,
"minor_i = sqrt(d^2/4 - minDist^2/4) for all minor axes". -/
def phsMinorRadius {n : ℕ} (F : Foci n) (d : ℝ) : ℝ :=
  Real.sqrt (d ^ 2 / 4 - F.minDist ^ 2 / 4)

/-- Modelled from the spec: the per-axis radii vector
"[d/2, minor, minor, ...]"; index 0 is the major axis. -/
def phsRadii {n : ℕ} [NeZero n] (F : Foci n) (d : ℝ) : Fin n → ℝ :=
  fun i => if i = 0 then d / 2 else phsMinorRadius F d

/-- Modelled from the spec: the Ellipsoid Transform,
"applies rotation * diag(radii) * unitBallPoint + centroid". -/
def phsTransform {n : ℕ} [NeZero n] (R : Matrix (Fin n) (Fin n) ℝ)
    (F : Foci n) (d : ℝ) (b : Fin n → ℝ) : Fin n → ℝ :=
  fun i => F.centroid i + R.mulVec (fun j => phsRadii F d j * b j) i

/-- Modelled from the spec: the admissible path-length heuristic,
"distance(focus1, state projected to informed sub-block) + distance(state
projected to informed sub-block, focus2)".  A full state is a pair of an
informed sub-block point and an uninformed sub-block point of type `U`. -/
def heuristicSolnCost {n : ℕ} {U : Type} (F : Foci n)
    (s : (Fin n → ℝ) × U) : ℝ :=
  euclDist F.f1 s.1 + euclDist s.1 F.f2

/-- Modelled from the spec: the cost bound, a finite scalar or the
"no bound" sentinel representing infinite cost (no solution found yet). -/
inductive Cost where
  | finite (c : ℝ)
  | infinite

/-- Modelled from the spec: the explicit randomness of one sampling session.
`ball i` is the i-th draw of the unit-ball sampler (the spec's
"normalize to a random unit direction, scale by u^(1/n)" construction puts
each draw in the open unit ball; theorems state this as a hypothesis),
`unin i` the i-th draw of the uninformed sub-block sampler, and `base i`
the i-th draw of the whole-space uniform sampler. -/
structure DrawStream (n : ℕ) (U : Type) where
  ball : ℕ → Fin n → ℝ
  unin : ℕ → U
  base : ℕ → (Fin n → ℝ) × U

/-- Modelled from the spec: the Informed Cost Sampler's construction-time
data: the focus pair, the rotation built by the Ellipsoid Transform
(deterministic in the foci, hence fixed here; theorems constrain it to be
orthonormal with first column the unit focal vector), the declared-bounds
predicate of the configuration space, the measure of the entire state
space, and the retry budget `maxNumberCalls`. -/
structure Sampler (n : ℕ) (U : Type) where
  F : Foci n
  rot : Matrix (Fin n) (Fin n) ℝ
  inBounds : (Fin n → ℝ) × U → Prop
  spaceMeasure : ℝ
  maxNumberCalls : ℕ

/-- Modelled from the spec: `sampleUniformIgnoreBounds` — "sample uniformly
in the subset of the infinite state space whose heuristic solution
estimates are less than the provided cost, i.e., ignores the bounds of the
state space".  It is a total function of the draw index: a PHS-transformed
informed point composed with an uninformed draw; it has no failure result. -/
def sampleUniformIgnoreBounds {n : ℕ} [NeZero n] {U : Type}
    (S : Sampler n U) (str : DrawStream n U) (d : ℝ) (i : ℕ) :
    (Fin n → ℝ) × U :=
  (phsTransform S.rot S.F d (str.ball i), str.unin i)

/-- First accepted draw among indices `i, i+1, ...` within `fuel` attempts;
the bounded rejection loop shared by both public entry points. -/
def firstAccept {α : Type} (acc : α → Prop) [DecidablePred acc]
    (draw : ℕ → α) : ℕ → ℕ → Option α
  | _, 0 => none
  | i, fuel + 1 =>
      if acc (draw i) then some (draw i) else firstAccept acc draw (i + 1) fuel

/-- Modelled from the spec: the one-bound public entry point
`sampleUniform(state, maxCost)`.  If `maxCost` is the infinite sentinel it
"delegates entirely to the whole-space uniform sampler"; otherwise it loops
up to the retry budget over ignore-bounds draws, accepting the first one
within the declared bounds.  `none` is the ordinary boolean failure. -/
def sampleUniform1 {n : ℕ} [NeZero n] {U : Type}
    (S : Sampler n U) (str : DrawStream n U) :
    Cost → Option ((Fin n → ℝ) × U)
  | Cost.infinite => some (str.base 0)
  | Cost.finite d =>
      firstAccept (fun s => S.inBounds s)
        (sampleUniformIgnoreBounds S str d) 0 S.maxNumberCalls

/-- Modelled from the spec: the two-bound public entry point
`sampleUniform(state, minCost, maxCost)` for finite bounds: "draw from the
maxCost ellipsoid, accept only if heuristic cost >= minCost; bounded by the
same retry budget", with the declared-bounds rejection retained. -/
def sampleUniform2 {n : ℕ} [NeZero n] {U : Type}
    (S : Sampler n U) (str : DrawStream n U) (minCost maxCost : ℝ) :
    Option ((Fin n → ℝ) × U) :=
  firstAccept
    (fun s => S.inBounds s ∧ minCost ≤ heuristicSolnCost S.F s)
    (sampleUniformIgnoreBounds S str maxCost) 0 S.maxNumberCalls

/-- Modelled from the spec: the volume of the unit n-ball, by the standard
two-step recurrence (the closed form pi^(n/2)/Gamma(n/2+1) the measure
formula refers to). -/
def unitNBallMeasure : ℕ → ℝ
  | 0 => 1
  | 1 => 2
  | n + 2 => 2 * Real.pi / (n + 2) * unitNBallMeasure n

/-- Modelled from the spec: the closed-form hyperellipsoid volume with
major radius d/2 and n-1 equal minor radii sqrt(d^2/4 - dmin^2/4). -/
def phsMeasure (n : ℕ) (dmin d : ℝ) : ℝ :=
  unitNBallMeasure n * (d / 2) * Real.sqrt (d ^ 2 / 4 - dmin ^ 2 / 4) ^ (n - 1)

/-- Modelled from the spec: `getInformedMeasure(currentCost)` — "returns the
Ellipsoid Transform's measure for currentCost, or the full state space's
measure if no solution exists yet (currentCost is infinite)"; it "does not
consider problem boundaries". -/
def getInformedMeasure {n : ℕ} {U : Type} (S : Sampler n U) :
    Cost → ℝ
  | Cost.finite d => phsMeasure n S.F.minDist d
  | Cost.infinite => S.spaceMeasure

/-- Modelled from the spec: the Ellipsoid Transform state: "rotation, ...
per-axis radii, ... and cached last built for cost = X marker". -/
structure PhsState (n : ℕ) where
  lastCost : ℝ
  rot : Matrix (Fin n) (Fin n) ℝ
  radii : Fin n → ℝ

/-- Modelled from the spec: building the Ellipsoid Transform for a
transverse diameter `d`: the rotation is the deterministic orthonormal
basis computed from the foci (carried as `R`), the radii the vector
`[d/2, minor, ...]`. -/
def buildPhs {n : ℕ} [NeZero n] (F : Foci n)
    (R : Matrix (Fin n) (Fin n) ℝ) (d : ℝ) : PhsState n :=
  ⟨d, R, phsRadii F d⟩

/-- Modelled from the spec: the memoized-builder update — "store
(lastCostBuiltFor, transform); rebuild only on mismatch". -/
def updatePhs {n : ℕ} [NeZero n] (F : Foci n)
    (R : Matrix (Fin n) (Fin n) ℝ) (st : PhsState n) (d : ℝ) : PhsState n :=
  if st.lastCost = d then st else buildPhs F R d

/-- The cache invariant of the memoized builder: the stored transform is the
one built for the stored cost key. -/
def phsValid {n : ℕ} [NeZero n] (F : Foci n)
    (R : Matrix (Fin n) (Fin n) ℝ) (st : PhsState n) : Prop :=
  st = buildPhs F R st.lastCost

/-- Modelled from the spec: the plain whole-space uniform sampler used
before any solution exists; it always succeeds, returning the first
whole-space draw. -/
def wholeSpaceSample {n : ℕ} {U : Type} (str : DrawStream n U) :
    Option ((Fin n → ℝ) × U) :=
  some (str.base 0)

end

/-! ## Generic facts about the bounded rejection loop -/

theorem firstAccept_eq_none_iff {α : Type} (acc : α → Prop) [DecidablePred acc]
    (draw : ℕ → α) :
    ∀ (fuel i : ℕ), (firstAccept acc draw i fuel = none ↔
      ∀ j, i ≤ j → j < i + fuel → ¬ acc (draw j))
  | 0, i =>
      ⟨fun _ j hij hj => absurd hj (by omega), fun _ => rfl⟩
  | fuel + 1, i => by
      have hunf : firstAccept acc draw i (fuel + 1)
          = if acc (draw i) then some (draw i)
            else firstAccept acc draw (i + 1) fuel := rfl
      rw [hunf]
      by_cases h : acc (draw i)
      · rw [if_pos h]
        constructor
        · intro hc
          exact Option.noConfusion hc
        · intro hall
          exact absurd h (hall i le_rfl (by omega))
      · rw [if_neg h]
        rw [firstAccept_eq_none_iff acc draw fuel (i + 1)]
        constructor
        · intro hall j hij hj
          rcases Nat.eq_or_lt_of_le hij with rfl | hlt
          · exact h
          · exact hall j hlt (by omega)
        · intro hall j hij hj
          exact hall j (by omega) (by omega)

theorem firstAccept_eq_some {α : Type} (acc : α → Prop) [DecidablePred acc]
    (draw : ℕ → α) :
    ∀ (fuel i : ℕ) (s : α), firstAccept acc draw i fuel = some s →
      ∃ j, i ≤ j ∧ j < i + fuel ∧ s = draw j ∧ acc (draw j)
  | 0, i, s => by
      intro h
      exact Option.noConfusion h
  | fuel + 1, i, s => by
      intro h
      have hunf : firstAccept acc draw i (fuel + 1)
          = if acc (draw i) then some (draw i)
            else firstAccept acc draw (i + 1) fuel := rfl
      rw [hunf] at h
      by_cases hacc : acc (draw i)
      · rw [if_pos hacc] at h
        refine ⟨i, le_rfl, by omega, ?_, hacc⟩
        exact (Option.some_injective α h).symm
      · rw [if_neg hacc] at h
        obtain ⟨j, h1, h2, h3, h4⟩ := firstAccept_eq_some acc draw fuel (i + 1) s h
        exact ⟨j, by omega, by omega, h3, h4⟩

/-! ## Geometry of the PHS transform -/

/-- An orthonormal matrix (transpose * self = 1) preserves the sum of
squares of a vector's coordinates. -/
theorem mulVec_sum_sq {n : ℕ} {R : Matrix (Fin n) (Fin n) ℝ}
    (hR : R.transpose * R = 1) (v : Fin n → ℝ) :
    ∑ i, R.mulVec v i ^ 2 = ∑ i, v i ^ 2 := by
  have hexp : ∀ i, R.mulVec v i ^ 2
      = ∑ j, ∑ k, v j * v k * (R i j * R i k) := by
    intro i
    rw [pow_two]
    show (∑ j, R i j * v j) * (∑ k, R i k * v k) = _
    rw [Finset.sum_mul_sum]
    refine Finset.sum_congr rfl fun j _ => Finset.sum_congr rfl fun k _ => by ring
  calc ∑ i, R.mulVec v i ^ 2
      = ∑ i, ∑ j, ∑ k, v j * v k * (R i j * R i k) :=
        Finset.sum_congr rfl fun i _ => hexp i
    _ = ∑ j, ∑ k, v j * v k * ∑ i, R i j * R i k := by
        rw [Finset.sum_comm]
        refine Finset.sum_congr rfl fun j _ => ?_
        rw [Finset.sum_comm]
        refine Finset.sum_congr rfl fun k _ => ?_
        rw [Finset.mul_sum]
    _ = ∑ j, ∑ k, v j * v k * (1 : Matrix (Fin n) (Fin n) ℝ) j k := by
        refine Finset.sum_congr rfl fun j _ => Finset.sum_congr rfl fun k _ => ?_
        congr 1
        rw [← hR, Matrix.mul_apply]
        refine Finset.sum_congr rfl fun i _ => ?_
        rw [Matrix.transpose_apply]
    _ = ∑ j, v j ^ 2 := by
        refine Finset.sum_congr rfl fun j _ => ?_
        rw [Finset.sum_eq_single j]
        · rw [Matrix.one_apply_eq, mul_one, pow_two]
        · intro k _ hk
          rw [Matrix.one_apply_ne (Ne.symm hk), mul_zero]
        · intro hj
          exact absurd (Finset.mem_univ j) hj

theorem euclDist_nonneg {n : ℕ} (x y : Fin n → ℝ) : 0 ≤ euclDist x y :=
  Real.sqrt_nonneg _

theorem euclDist_comm {n : ℕ} (x y : Fin n → ℝ) :
    euclDist x y = euclDist y x := by
  unfold euclDist
  congr 1
  refine Finset.sum_congr rfl fun i _ => ?_
  ring

theorem Foci.minDist_nonneg {n : ℕ} (F : Foci n) : 0 ≤ F.minDist :=
  Real.sqrt_nonneg _

/-- The minor-radius radicand is nonnegative whenever the transverse
diameter is at least the minimum possible cost. -/
theorem phsMinorRadius_sq {n : ℕ} (F : Foci n) {d : ℝ} (hd : F.minDist ≤ d) :
    phsMinorRadius F d ^ 2 = d ^ 2 / 4 - F.minDist ^ 2 / 4 := by
  unfold phsMinorRadius
  rw [Real.sq_sqrt]
  nlinarith [F.minDist_nonneg]

/-- Sum-of-squares identity for a radii-scaled ball point shifted along the
major axis by an offset `e` with `e^2 = minDist^2/4` (the two foci are at
offsets plus and minus `minDist/2` from the centroid). -/
theorem sum_sq_offset {n : ℕ} [NeZero n] (F : Foci n) {d : ℝ} (e : ℝ)
    (he : e ^ 2 = F.minDist ^ 2 / 4) (hd : F.minDist ≤ d) (b : Fin n → ℝ) :
    ∑ j, ((if j = 0 then e else 0) + phsRadii F d j * b j) ^ 2
      = (d / 2 + e * b 0) ^ 2
        - phsMinorRadius F d ^ 2 * (1 - ∑ j, b j ^ 2) := by
  have hm := phsMinorRadius_sq F hd
  have hsplit : ∀ g : Fin n → ℝ, ∑ j, g j = g 0 + ∑ j ∈ Finset.univ.erase 0, g j :=
    fun g => (Finset.add_sum_erase Finset.univ g (Finset.mem_univ 0)).symm
  rw [hsplit fun j => ((if j = 0 then e else 0) + phsRadii F d j * b j) ^ 2,
      hsplit fun j => b j ^ 2]
  have h0 : ((if (0 : Fin n) = 0 then e else 0) + phsRadii F d 0 * b 0) ^ 2
      = (e + d / 2 * b 0) ^ 2 := by
    rw [if_pos rfl]
    unfold phsRadii
    rw [if_pos rfl]
  have hrest : ∑ j ∈ Finset.univ.erase 0,
      ((if j = 0 then e else 0) + phsRadii F d j * b j) ^ 2
      = phsMinorRadius F d ^ 2 * ∑ j ∈ Finset.univ.erase 0, b j ^ 2 := by
    rw [Finset.mul_sum]
    refine Finset.sum_congr rfl fun j hj => ?_
    have hj0 : j ≠ 0 := Finset.ne_of_mem_erase hj
    rw [if_neg hj0]
    unfold phsRadii
    rw [if_neg hj0]
    ring
  rw [h0, hrest]
  nlinarith [hm, he]

/-- The distance from a point `g` at major-axis offset `e` from the centroid
to a PHS-transformed ball point, in closed form.  Instantiating `g` at each
focus (offsets plus and minus `minDist/2`) yields the focal distances. -/
theorem euclDist_offset_transform {n : ℕ} [NeZero n]
    {R : Matrix (Fin n) (Fin n) ℝ} (hR : R.transpose * R = 1)
    (F : Foci n) {d : ℝ} (e : ℝ) (g : Fin n → ℝ)
    (hg : ∀ i, F.centroid i - g i = e * R i 0)
    (he : e ^ 2 = F.minDist ^ 2 / 4) (hd : F.minDist ≤ d) (b : Fin n → ℝ) :
    euclDist g (phsTransform R F d b)
      = Real.sqrt ((d / 2 + e * b 0) ^ 2
          - phsMinorRadius F d ^ 2 * (1 - ∑ j, b j ^ 2)) := by
  have hvec : ∀ i, phsTransform R F d b i - g i
      = R.mulVec (fun j => (if j = 0 then e else 0) + phsRadii F d j * b j) i := by
    intro i
    have hsum : R.mulVec (fun j => (if j = 0 then e else 0) + phsRadii F d j * b j) i
        = (∑ j, R i j * (if j = 0 then e else 0))
          + R.mulVec (fun j => phsRadii F d j * b j) i := by
      show (∑ j, R i j * ((if j = 0 then e else 0) + phsRadii F d j * b j))
        = (∑ j, R i j * (if j = 0 then e else 0))
          + ∑ j, R i j * (phsRadii F d j * b j)
      rw [← Finset.sum_add_distrib]
      refine Finset.sum_congr rfl fun j _ => by ring
    have hone : (∑ j, R i j * (if j = 0 then e else 0)) = e * R i 0 := by
      rw [Finset.sum_eq_single 0]
      · rw [if_pos rfl]
        ring
      · intro j _ hj
        rw [if_neg hj, mul_zero]
      · intro hj
        exact absurd (Finset.mem_univ 0) hj
    rw [hsum, hone, ← hg i]
    unfold phsTransform
    ring
  unfold euclDist
  have hsq : ∀ i, (g i - phsTransform R F d b i) ^ 2
      = R.mulVec (fun j => (if j = 0 then e else 0) + phsRadii F d j * b j) i ^ 2 := by
    intro i
    rw [← hvec i]
    ring
  rw [Finset.sum_congr rfl fun i _ => hsq i,
      mulVec_sum_sq hR, sum_sq_offset F e he hd b]

/-- Nonstrict focal-distance bound: for a ball point with sum of squares at
most one, the distance from the offset point `g` to the transformed point is
at most `d/2 + e * b 0`. -/
theorem euclDist_offset_transform_le {n : ℕ} [NeZero n]
    {R : Matrix (Fin n) (Fin n) ℝ} (hR : R.transpose * R = 1)
    (F : Foci n) {d : ℝ} (e : ℝ) (g : Fin n → ℝ)
    (hg : ∀ i, F.centroid i - g i = e * R i 0)
    (he : e ^ 2 = F.minDist ^ 2 / 4) (hd : F.minDist ≤ d) (b : Fin n → ℝ)
    (hb : ∑ j, b j ^ 2 ≤ 1) :
    euclDist g (phsTransform R F d b) ≤ d / 2 + e * b 0 := by
  have hb0 : b 0 ^ 2 ≤ 1 := by
    have : b 0 ^ 2 ≤ ∑ j, b j ^ 2 :=
      Finset.single_le_sum (fun j _ => sq_nonneg (b j)) (Finset.mem_univ 0)
    linarith
  have hdn : 0 ≤ d := le_trans F.minDist_nonneg hd
  have hpos : 0 ≤ d / 2 + e * b 0 := by
    nlinarith [sq_nonneg (e * b 0 + d / 2), sq_nonneg (e * b 0 - d / 2),
      F.minDist_nonneg]
  rw [euclDist_offset_transform hR F e g hg he hd b]
  have hrad : (d / 2 + e * b 0) ^ 2 - phsMinorRadius F d ^ 2 * (1 - ∑ j, b j ^ 2)
      ≤ (d / 2 + e * b 0) ^ 2 := by
    nlinarith [sq_nonneg (phsMinorRadius F d)]
  calc Real.sqrt ((d / 2 + e * b 0) ^ 2
          - phsMinorRadius F d ^ 2 * (1 - ∑ j, b j ^ 2))
      ≤ Real.sqrt ((d / 2 + e * b 0) ^ 2) := Real.sqrt_le_sqrt hrad
    _ = d / 2 + e * b 0 := by
        rw [Real.sqrt_sq hpos]

/-- Strict focal-distance bound: strictly inside the unit ball and with a
strictly larger transverse diameter than the minimum cost, the focal
distance is strictly below `d/2 + e * b 0`. -/
theorem euclDist_offset_transform_lt {n : ℕ} [NeZero n]
    {R : Matrix (Fin n) (Fin n) ℝ} (hR : R.transpose * R = 1)
    (F : Foci n) {d : ℝ} (e : ℝ) (g : Fin n → ℝ)
    (hg : ∀ i, F.centroid i - g i = e * R i 0)
    (he : e ^ 2 = F.minDist ^ 2 / 4) (hdlt : F.minDist < d) (b : Fin n → ℝ)
    (hb : ∑ j, b j ^ 2 < 1) :
    euclDist g (phsTransform R F d b) < d / 2 + e * b 0 := by
  have hd : F.minDist ≤ d := le_of_lt hdlt
  have hb0 : b 0 ^ 2 ≤ 1 := by
    have : b 0 ^ 2 ≤ ∑ j, b j ^ 2 :=
      Finset.single_le_sum (fun j _ => sq_nonneg (b j)) (Finset.mem_univ 0)
    linarith
  have hminor : 0 < phsMinorRadius F d ^ 2 := by
    rw [phsMinorRadius_sq F hd]
    nlinarith [F.minDist_nonneg]
  have hpos : 0 < d / 2 + e * b 0 := by
    nlinarith [sq_nonneg (e * b 0 + d / 2), sq_nonneg (e * b 0 - d / 2),
      F.minDist_nonneg]
  rw [euclDist_offset_transform hR F e g hg he hd b]
  rw [Real.sqrt_lt' hpos]
  nlinarith [hminor]

/-- Focus 1 sits at offset `minDist/2` from the centroid along the first
rotation column, given that column is the unit focal direction. -/
theorem focus1_offset {n : ℕ} [NeZero n] {R : Matrix (Fin n) (Fin n) ℝ}
    (F : Foci n) (hcol : ∀ i, F.minDist * R i 0 = F.f2 i - F.f1 i) :
    ∀ i, F.centroid i - F.f1 i = F.minDist / 2 * R i 0 := by
  intro i
  have := hcol i
  unfold Foci.centroid
  linarith

/-- Focus 2 sits at offset `-minDist/2` from the centroid along the first
rotation column. -/
theorem focus2_offset {n : ℕ} [NeZero n] {R : Matrix (Fin n) (Fin n) ℝ}
    (F : Foci n) (hcol : ∀ i, F.minDist * R i 0 = F.f2 i - F.f1 i) :
    ∀ i, F.centroid i - F.f2 i = -(F.minDist / 2) * R i 0 := by
  intro i
  have := hcol i
  unfold Foci.centroid
  linarith

/-- Any PHS-transformed closed-unit-ball point has heuristic cost at most
the transverse diameter. -/
theorem heuristicSolnCost_transform_le {n : ℕ} [NeZero n] {U : Type}
    {R : Matrix (Fin n) (Fin n) ℝ} (hR : R.transpose * R = 1)
    (F : Foci n) {d : ℝ}
    (hcol : ∀ i, F.minDist * R i 0 = F.f2 i - F.f1 i)
    (hd : F.minDist ≤ d) (b : Fin n → ℝ) (hb : ∑ j, b j ^ 2 ≤ 1) (u : U) :
    heuristicSolnCost F (phsTransform R F d b, u) ≤ d := by
  have he1 : (F.minDist / 2) ^ 2 = F.minDist ^ 2 / 4 := by ring
  have he2 : (-(F.minDist / 2)) ^ 2 = F.minDist ^ 2 / 4 := by ring
  have h1 := euclDist_offset_transform_le hR F (F.minDist / 2) F.f1
    (focus1_offset F hcol) he1 hd b hb
  have h2 := euclDist_offset_transform_le hR F (-(F.minDist / 2)) F.f2
    (focus2_offset F hcol) he2 hd b hb
  unfold heuristicSolnCost
  have hc1 : euclDist F.f1 (phsTransform R F d b)
      = euclDist F.f1 (phsTransform R F d b, u).1 := rfl
  rw [euclDist_comm (phsTransform R F d b, u).1 F.f2]
  rw [← hc1] at *
  simp only at h1 h2 ⊢
  linarith

/-- Strictly inside the unit ball and with transverse diameter strictly
above the minimum cost, the heuristic cost is strictly below the diameter. -/
theorem heuristicSolnCost_transform_lt {n : ℕ} [NeZero n] {U : Type}
    {R : Matrix (Fin n) (Fin n) ℝ} (hR : R.transpose * R = 1)
    (F : Foci n) {d : ℝ}
    (hcol : ∀ i, F.minDist * R i 0 = F.f2 i - F.f1 i)
    (hdlt : F.minDist < d) (b : Fin n → ℝ) (hb : ∑ j, b j ^ 2 < 1) (u : U) :
    heuristicSolnCost F (phsTransform R F d b, u) < d := by
  have he1 : (F.minDist / 2) ^ 2 = F.minDist ^ 2 / 4 := by ring
  have he2 : (-(F.minDist / 2)) ^ 2 = F.minDist ^ 2 / 4 := by ring
  have h1 := euclDist_offset_transform_lt hR F (F.minDist / 2) F.f1
    (focus1_offset F hcol) he1 hdlt b hb
  have h2 := euclDist_offset_transform_lt hR F (-(F.minDist / 2)) F.f2
    (focus2_offset F hcol) he2 hdlt b hb
  unfold heuristicSolnCost
  rw [euclDist_comm (phsTransform R F d b, u).1 F.f2]
  simp only at h1 h2 ⊢
  linarith

/-- With the all-zero ball point, the PHS transform returns the centroid,
for every transverse diameter. -/
theorem phsTransform_zero_ball {n : ℕ} [NeZero n]
    (R : Matrix (Fin n) (Fin n) ℝ) (F : Foci n) (d : ℝ) :
    phsTransform R F d (fun _ => 0) = F.centroid := by
  funext i
  unfold phsTransform
  have hv : (fun j => phsRadii F d j * (fun _ => (0 : ℝ)) j)
      = (0 : Fin n → ℝ) := by
    funext j
    simp
  rw [hv, Matrix.mulVec_zero]
  simp

/-! ## A concrete planar configuration (foci (0,0) and (10,0)) -/

noncomputable section

/-- Foci at (0,0) and (10,0) in the plane (the spec's end-to-end scenario). -/
def testFoci : Foci 2 := ⟨![0, 0], ![10, 0]⟩

/-- A concrete sampler over the planar foci: identity rotation, bounds
satisfied everywhere, whole-space measure 1, retry budget 1. -/
def testSampler : Sampler 2 Unit :=
  ⟨testFoci, 1, fun _ => True, 1, 1⟩

/-- A concrete draw stream whose unit-ball draws are all the origin. -/
def testStream : DrawStream 2 Unit :=
  ⟨fun _ _ => 0, fun _ => (), fun _ => (![3, 3], ())⟩

end

theorem testFoci_minDist : testFoci.minDist = 10 := by
  have h : Real.sqrt 100 = 10 := by
    rw [show (100 : ℝ) = 10 ^ 2 by norm_num,
      Real.sqrt_sq (by norm_num : (0 : ℝ) ≤ 10)]
  unfold Foci.minDist euclDist testFoci
  rw [Fin.sum_univ_two]
  norm_num [h]

theorem testFoci_centroid : testFoci.centroid = ![5, 0] := by
  funext i
  unfold Foci.centroid testFoci
  fin_cases i <;> norm_num

/-- The heuristic cost of the centroid of the test foci is exactly 10. -/
theorem testFoci_cost_centroid (u : Unit) :
    heuristicSolnCost testFoci (testFoci.centroid, u) = 10 := by
  have h : Real.sqrt 25 = 5 := by
    rw [show (25 : ℝ) = 5 ^ 2 by norm_num,
      Real.sqrt_sq (by norm_num : (0 : ℝ) ≤ 5)]
  unfold heuristicSolnCost euclDist
  rw [testFoci_centroid]
  show Real.sqrt (∑ i : Fin 2, (testFoci.f1 i - ![5, 0] i) ^ 2)
      + Real.sqrt (∑ i : Fin 2, (![5, 0] i - testFoci.f2 i) ^ 2) = 10
  rw [Fin.sum_univ_two, Fin.sum_univ_two]
  unfold testFoci
  norm_num [h]

/-- The degenerate-diameter ignore-bounds draw of the test configuration is
the centroid composed with the trivial uninformed point. -/
theorem test_draw_eq (d : ℝ) (i : ℕ) :
    sampleUniformIgnoreBounds testSampler testStream d i
      = (testFoci.centroid, ()) := by
  unfold sampleUniformIgnoreBounds
  have hb : testStream.ball i = fun _ => 0 := rfl
  rw [show testSampler.rot = 1 from rfl, show testSampler.F = testFoci from rfl,
    hb, phsTransform_zero_ball]

/-- The identity rotation is orthonormal. -/
theorem test_rot_orthonormal :
    (testSampler.rot).transpose * testSampler.rot = 1 := by
  show (1 : Matrix (Fin 2) (Fin 2) ℝ).transpose * 1 = 1
  rw [Matrix.transpose_one, mul_one]

/-- The first column of the identity rotation is the unit focal direction of
the test foci. -/
theorem test_rot_col :
    ∀ i, testSampler.F.minDist * testSampler.rot i 0
      = testSampler.F.f2 i - testSampler.F.f1 i := by
  intro i
  show testFoci.minDist * (1 : Matrix (Fin 2) (Fin 2) ℝ) i 0
    = testFoci.f2 i - testFoci.f1 i
  rw [testFoci_minDist]
  unfold testFoci
  fin_cases i <;>
    simp [Matrix.one_apply, Fin.mk_zero, Fin.mk_one]

/-- On the concrete configuration (bounds hold everywhere, budget 1), the
one-bound sampler accepts the first draw immediately. -/
theorem test_sample1_eval (d : ℝ) :
    sampleUniform1 testSampler testStream (Cost.finite d)
      = some (sampleUniformIgnoreBounds testSampler testStream d 0) := by
  have h : sampleUniform1 testSampler testStream (Cost.finite d)
      = if testSampler.inBounds (sampleUniformIgnoreBounds testSampler testStream d 0)
        then some (sampleUniformIgnoreBounds testSampler testStream d 0)
        else firstAccept (fun s => testSampler.inBounds s)
          (sampleUniformIgnoreBounds testSampler testStream d) 1 0 := rfl
  have hC : testSampler.inBounds (sampleUniformIgnoreBounds testSampler testStream d 0) :=
    True.intro
  rw [h, if_pos hC]

/-- On the concrete configuration, the two-bound sampler accepts the first
draw as soon as the minimum cost is at most the draw's cost of 10. -/
theorem test_sample2_eval {minC : ℝ} (maxC : ℝ) (hc : minC ≤ 10) :
    sampleUniform2 testSampler testStream minC maxC
      = some (sampleUniformIgnoreBounds testSampler testStream maxC 0) := by
  have hcost : heuristicSolnCost testSampler.F
      (sampleUniformIgnoreBounds testSampler testStream maxC 0) = 10 := by
    rw [test_draw_eq]
    exact testFoci_cost_centroid ()
  have h : sampleUniform2 testSampler testStream minC maxC
      = if (testSampler.inBounds (sampleUniformIgnoreBounds testSampler testStream maxC 0)
          ∧ minC ≤ heuristicSolnCost testSampler.F
              (sampleUniformIgnoreBounds testSampler testStream maxC 0))
        then some (sampleUniformIgnoreBounds testSampler testStream maxC 0)
        else firstAccept
          (fun s => testSampler.inBounds s ∧ minC ≤ heuristicSolnCost testSampler.F s)
          (sampleUniformIgnoreBounds testSampler testStream maxC) 1 0 := rfl
  have hC : testSampler.inBounds (sampleUniformIgnoreBounds testSampler testStream maxC 0) :=
    True.intro
  rw [h, if_pos ⟨hC, by rw [hcost]; exact hc⟩]

/-- Claim C1 (amended): for every finite maxCost strictly greater than the
minimum distance between the foci, every accepted sample of the one-bound
sampleUniform lies within the declared bounds and has heuristic solution
cost strictly below maxCost.  (At maxCost = minDist the accepted sample's
cost equals maxCost exactly; see the counterexample.) -/
theorem sampleUniform1_accepted_cost_lt {n : ℕ} [NeZero n] {U : Type}
    (S : Sampler n U) (str : DrawStream n U) (d : ℝ) (s : (Fin n → ℝ) × U)
    (hR : S.rot.transpose * S.rot = 1)
    (hcol : ∀ i, S.F.minDist * S.rot i 0 = S.F.f2 i - S.F.f1 i)
    (hstr : ∀ i, ∑ j, str.ball i j ^ 2 < 1)
    (hd : S.F.minDist < d)
    (hacc : sampleUniform1 S str (Cost.finite d) = some s) :
    S.inBounds s ∧ heuristicSolnCost S.F s < d := by
  obtain ⟨j, -, -, rfl, hj⟩ := firstAccept_eq_some
    (fun t => S.inBounds t) (sampleUniformIgnoreBounds S str d)
    S.maxNumberCalls 0 s hacc
  refine ⟨hj, ?_⟩
  show heuristicSolnCost S.F
    (phsTransform S.rot S.F d (str.ball j), str.unin j) < d
  exact heuristicSolnCost_transform_lt hR S.F hcol hd (str.ball j) (hstr j)
    (str.unin j)

/-- Witness for the amended C1 at the concrete planar configuration with
maxCost = 20 > 10 = minDist. -/
theorem sampleUniform1_accepted_cost_lt_witness :
    testSampler.F.minDist < 20
    ∧ (testSampler.inBounds (sampleUniformIgnoreBounds testSampler testStream 20 0)
      ∧ heuristicSolnCost testSampler.F
          (sampleUniformIgnoreBounds testSampler testStream 20 0) < 20) := by
  have hmd : testSampler.F.minDist < 20 := by
    rw [show testSampler.F = testFoci from rfl, testFoci_minDist]
    norm_num
  refine ⟨hmd, ?_⟩
  exact sampleUniform1_accepted_cost_lt testSampler testStream 20 _
    test_rot_orthonormal test_rot_col
    (fun i => by
      rw [show testStream.ball i = fun _ => 0 from rfl]
      norm_num)
    hmd (test_sample1_eval 20)

/-- Claim C1 counterexample: at maxCost = minDist = 10 (a finite bound with
maxCost ≥ minDist) the sampler accepts the centroid, which satisfies the
bounds but has heuristic cost exactly 10, not strictly below maxCost. -/
theorem sampleUniform1_degenerate_counterexample :
    testSampler.F.minDist ≤ 10
    ∧ sampleUniform1 testSampler testStream (Cost.finite 10)
        = some (testFoci.centroid, ())
    ∧ testSampler.inBounds (testFoci.centroid, ())
    ∧ ¬ heuristicSolnCost testSampler.F (testFoci.centroid, ()) < 10 := by
  refine ⟨?_, ?_, True.intro, ?_⟩
  · rw [show testSampler.F = testFoci from rfl, testFoci_minDist]
  · rw [test_sample1_eval 10, test_draw_eq]
  · rw [show heuristicSolnCost testSampler.F (testFoci.centroid, ()) = 10
      from testFoci_cost_centroid ()]
    norm_num

/-- Claim C2 (amended): for finite minCost ≤ maxCost with maxCost strictly
greater than the minimum distance between the foci, every accepted sample of
the two-bound variant has heuristic cost in [minCost, maxCost).  (At
maxCost = minDist an accepted sample's cost equals maxCost; see the
counterexample.) -/
theorem sampleUniform2_accepted_cost_in_annulus {n : ℕ} [NeZero n] {U : Type}
    (S : Sampler n U) (str : DrawStream n U) (minC maxC : ℝ)
    (s : (Fin n → ℝ) × U)
    (hR : S.rot.transpose * S.rot = 1)
    (hcol : ∀ i, S.F.minDist * S.rot i 0 = S.F.f2 i - S.F.f1 i)
    (hstr : ∀ i, ∑ j, str.ball i j ^ 2 < 1)
    (hmc : minC ≤ maxC)
    (hd : S.F.minDist < maxC)
    (hacc : sampleUniform2 S str minC maxC = some s) :
    minC ≤ heuristicSolnCost S.F s ∧ heuristicSolnCost S.F s < maxC := by
  obtain ⟨j, -, -, rfl, hj⟩ := firstAccept_eq_some
    (fun t => S.inBounds t ∧ minC ≤ heuristicSolnCost S.F t)
    (sampleUniformIgnoreBounds S str maxC)
    S.maxNumberCalls 0 s hacc
  refine ⟨hj.2, ?_⟩
  show heuristicSolnCost S.F
    (phsTransform S.rot S.F maxC (str.ball j), str.unin j) < maxC
  exact heuristicSolnCost_transform_lt hR S.F hcol hd (str.ball j) (hstr j)
    (str.unin j)

/-- Witness for the amended C2 at the concrete planar configuration with
minCost = 0, maxCost = 20. -/
theorem sampleUniform2_accepted_cost_in_annulus_witness :
    ((0 : ℝ) ≤ 20 ∧ testSampler.F.minDist < 20)
    ∧ ((0 : ℝ) ≤ heuristicSolnCost testSampler.F
          (sampleUniformIgnoreBounds testSampler testStream 20 0)
      ∧ heuristicSolnCost testSampler.F
          (sampleUniformIgnoreBounds testSampler testStream 20 0) < 20) := by
  have hmd : testSampler.F.minDist < 20 := by
    rw [show testSampler.F = testFoci from rfl, testFoci_minDist]
    norm_num
  refine ⟨⟨by norm_num, hmd⟩, ?_⟩
  exact sampleUniform2_accepted_cost_in_annulus testSampler testStream 0 20 _
    test_rot_orthonormal test_rot_col
    (fun i => by
      rw [show testStream.ball i = fun _ => 0 from rfl]
      norm_num)
    (by norm_num) hmd (test_sample2_eval 20 (by norm_num))

/-- Claim C2 counterexample: with minCost = maxCost = minDist = 10 the
two-bound variant accepts the centroid (cost 10 ≥ minCost), but its cost is
not strictly below maxCost. -/
theorem sampleUniform2_degenerate_counterexample :
    (10 : ℝ) ≤ 10
    ∧ sampleUniform2 testSampler testStream 10 10 = some (testFoci.centroid, ())
    ∧ (10 : ℝ) ≤ heuristicSolnCost testSampler.F (testFoci.centroid, ())
    ∧ ¬ heuristicSolnCost testSampler.F (testFoci.centroid, ()) < 10 := by
  have hcost : heuristicSolnCost testSampler.F (testFoci.centroid, ()) = 10 :=
    testFoci_cost_centroid ()
  refine ⟨le_refl 10, ?_, ?_, ?_⟩
  · rw [test_sample2_eval 10 (le_refl 10), test_draw_eq]
  · rw [hcost]
  · rw [hcost]
    norm_num

/-- Claim C3: with the infinite "no bound" sentinel, sampleUniform delegates
entirely to the whole-space uniform sampler and returns its result; the
informed machinery is skipped — the result does not depend on the sampler's
foci, rotation, bounds or budget. -/
theorem sampleUniform1_infinite_passthrough {n : ℕ} [NeZero n] {U : Type}
    (S T : Sampler n U) (str : DrawStream n U) :
    sampleUniform1 S str Cost.infinite = wholeSpaceSample str
    ∧ sampleUniform1 S str Cost.infinite = sampleUniform1 T str Cost.infinite :=
  ⟨rfl, rfl⟩

/-- Witness for C3 at the concrete planar configuration, against a second
sampler with different bounds and budget. -/
theorem sampleUniform1_infinite_passthrough_witness :
    sampleUniform1 testSampler testStream Cost.infinite
      = wholeSpaceSample testStream
    ∧ sampleUniform1 testSampler testStream Cost.infinite
      = sampleUniform1 (⟨testFoci, 1, fun _ => False, 0, 0⟩ : Sampler 2 Unit)
          testStream Cost.infinite :=
  sampleUniform1_infinite_passthrough testSampler
    (⟨testFoci, 1, fun _ => False, 0, 0⟩ : Sampler 2 Unit) testStream

/-- Claim C4: with finite bounds, each public variant performs bounded work:
it either accepts a draw whose index is below the retry budget
`maxNumberCalls`, or returns the ordinary failure value (the loop is a total
function of the budget; there is no exceptional outcome). -/
theorem sampleUniform_bounded_work {n : ℕ} [NeZero n] {U : Type}
    (S : Sampler n U) (str : DrawStream n U) (d minC maxC : ℝ) :
    ((∃ i, i < S.maxNumberCalls ∧ sampleUniform1 S str (Cost.finite d)
        = some (sampleUniformIgnoreBounds S str d i))
      ∨ sampleUniform1 S str (Cost.finite d) = none)
    ∧ ((∃ i, i < S.maxNumberCalls ∧ sampleUniform2 S str minC maxC
        = some (sampleUniformIgnoreBounds S str maxC i))
      ∨ sampleUniform2 S str minC maxC = none) := by
  constructor
  · cases hres : sampleUniform1 S str (Cost.finite d) with
    | none => exact Or.inr rfl
    | some s =>
        left
        obtain ⟨j, -, hj2, rfl, -⟩ := firstAccept_eq_some
          (fun t => S.inBounds t) (sampleUniformIgnoreBounds S str d)
          S.maxNumberCalls 0 s hres
        exact ⟨j, by omega, rfl⟩
  · cases hres : sampleUniform2 S str minC maxC with
    | none => exact Or.inr rfl
    | some s =>
        left
        obtain ⟨j, -, hj2, rfl, -⟩ := firstAccept_eq_some
          (fun t => S.inBounds t ∧ minC ≤ heuristicSolnCost S.F t)
          (sampleUniformIgnoreBounds S str maxC)
          S.maxNumberCalls 0 s hres
        exact ⟨j, by omega, rfl⟩

/-- Witness for C4 at the concrete planar configuration. -/
theorem sampleUniform_bounded_work_witness :
    ((∃ i, i < testSampler.maxNumberCalls
        ∧ sampleUniform1 testSampler testStream (Cost.finite 20)
          = some (sampleUniformIgnoreBounds testSampler testStream 20 i))
      ∨ sampleUniform1 testSampler testStream (Cost.finite 20) = none)
    ∧ ((∃ i, i < testSampler.maxNumberCalls
        ∧ sampleUniform2 testSampler testStream 19 20
          = some (sampleUniformIgnoreBounds testSampler testStream 20 i))
      ∨ sampleUniform2 testSampler testStream 19 20 = none) :=
  sampleUniform_bounded_work testSampler testStream 20 19 20

/-- Claim C9 (amended): the internal ignore-bounds draw is total — it yields
a composed full state for every draw index, with no failure result; the
one-bound public call fails exactly when every draw within the retry budget
violates the declared bounds, and the two-bound public call fails exactly
when every draw within the budget violates the bounds or fails the min-cost
acceptance check. -/
theorem sampleUniform_failure_characterization {n : ℕ} [NeZero n] {U : Type}
    (S : Sampler n U) (str : DrawStream n U) (d minC maxC : ℝ) :
    (∀ i, sampleUniformIgnoreBounds S str d i
      = (phsTransform S.rot S.F d (str.ball i), str.unin i))
    ∧ (sampleUniform1 S str (Cost.finite d) = none ↔
        ∀ i, i < S.maxNumberCalls →
          ¬ S.inBounds (sampleUniformIgnoreBounds S str d i))
    ∧ (sampleUniform2 S str minC maxC = none ↔
        ∀ i, i < S.maxNumberCalls →
          ¬ (S.inBounds (sampleUniformIgnoreBounds S str maxC i)
            ∧ minC ≤ heuristicSolnCost S.F
                (sampleUniformIgnoreBounds S str maxC i))) := by
  refine ⟨fun i => rfl, ?_, ?_⟩
  · have h := firstAccept_eq_none_iff (fun t => S.inBounds t)
      (sampleUniformIgnoreBounds S str d) S.maxNumberCalls 0
    constructor
    · intro hnone i hi
      exact h.mp hnone i (by omega) (by omega)
    · intro hall
      exact h.mpr fun j _ hj2 => hall j (by omega)
  · have h := firstAccept_eq_none_iff
      (fun t => S.inBounds t ∧ minC ≤ heuristicSolnCost S.F t)
      (sampleUniformIgnoreBounds S str maxC) S.maxNumberCalls 0
    constructor
    · intro hnone i hi
      exact h.mp hnone i (by omega) (by omega)
    · intro hall
      exact h.mpr fun j _ hj2 => hall j (by omega)

/-- Witness for the amended C9 at the concrete planar configuration. -/
theorem sampleUniform_failure_characterization_witness :
    (∀ i, sampleUniformIgnoreBounds testSampler testStream 20 i
      = (phsTransform testSampler.rot testSampler.F 20 (testStream.ball i),
          testStream.unin i))
    ∧ (sampleUniform1 testSampler testStream (Cost.finite 20) = none ↔
        ∀ i, i < testSampler.maxNumberCalls →
          ¬ testSampler.inBounds (sampleUniformIgnoreBounds testSampler testStream 20 i))
    ∧ (sampleUniform2 testSampler testStream 19 20 = none ↔
        ∀ i, i < testSampler.maxNumberCalls →
          ¬ (testSampler.inBounds (sampleUniformIgnoreBounds testSampler testStream 20 i)
            ∧ (19 : ℝ) ≤ heuristicSolnCost testSampler.F
                (sampleUniformIgnoreBounds testSampler testStream 20 i))) :=
  sampleUniform_failure_characterization testSampler testStream 20 19 20

/-- Claim C9 counterexample: a two-bound call can fail although every draw
lies within the declared bounds (here the bounds hold everywhere), because
of the min-cost acceptance check: with minCost = 19 the centroid draw of
cost 10 is rejected and the budget is exhausted. -/
theorem sampleUniform2_fails_in_bounds_counterexample :
    (∀ s, testSampler.inBounds s)
    ∧ sampleUniform2 testSampler testStream 19 20 = none := by
  refine ⟨fun _ => True.intro, ?_⟩
  have hcost : heuristicSolnCost testSampler.F
      (sampleUniformIgnoreBounds testSampler testStream 20 0) = 10 := by
    rw [test_draw_eq]
    exact testFoci_cost_centroid ()
  have hneg : ¬ (testSampler.inBounds (sampleUniformIgnoreBounds testSampler testStream 20 0)
      ∧ (19 : ℝ) ≤ heuristicSolnCost testSampler.F
          (sampleUniformIgnoreBounds testSampler testStream 20 0)) := by
    rintro ⟨-, hc⟩
    rw [hcost] at hc
    norm_num at hc
  have h : sampleUniform2 testSampler testStream 19 20
      = if (testSampler.inBounds (sampleUniformIgnoreBounds testSampler testStream 20 0)
          ∧ (19 : ℝ) ≤ heuristicSolnCost testSampler.F
              (sampleUniformIgnoreBounds testSampler testStream 20 0))
        then some (sampleUniformIgnoreBounds testSampler testStream 20 0)
        else firstAccept
          (fun s => testSampler.inBounds s
            ∧ (19 : ℝ) ≤ heuristicSolnCost testSampler.F s)
          (sampleUniformIgnoreBounds testSampler testStream 20) 1 0 := rfl
  rw [h, if_neg hneg]
  rfl

/-! ## Measure facts -/

theorem unitNBallMeasure_pos : (n : ℕ) → 0 < unitNBallMeasure n
  | 0 => by norm_num [unitNBallMeasure]
  | 1 => by norm_num [unitNBallMeasure]
  | n + 2 => by
      have ih := unitNBallMeasure_pos n
      show 0 < 2 * Real.pi / (((n : ℕ) : ℝ) + 2) * unitNBallMeasure n
      have hpi := Real.pi_pos
      have hden : (0 : ℝ) < ((n : ℕ) : ℝ) + 2 := by positivity
      exact mul_pos (div_pos (by linarith) hden) ih

/-- The product of the radii vector is the major radius times the common
minor radius to the number of minor axes. -/
theorem phsRadii_prod {n : ℕ} [NeZero n] (F : Foci n) (d : ℝ) :
    ∏ i, phsRadii F d i = d / 2 * phsMinorRadius F d ^ (n - 1) := by
  rw [← Finset.mul_prod_erase Finset.univ (phsRadii F d) (Finset.mem_univ 0)]
  have h0 : phsRadii F d 0 = d / 2 := by
    unfold phsRadii
    rw [if_pos rfl]
  have hrest : ∏ i ∈ Finset.univ.erase 0, phsRadii F d i
      = phsMinorRadius F d ^ (n - 1) := by
    have hconst : ∀ i ∈ Finset.univ.erase (0 : Fin n),
        phsRadii F d i = phsMinorRadius F d := by
      intro i hi
      unfold phsRadii
      rw [if_neg (Finset.ne_of_mem_erase hi)]
    rw [Finset.prod_congr rfl hconst, Finset.prod_const,
      Finset.card_erase_of_mem (Finset.mem_univ 0), Finset.card_univ,
      Fintype.card_fin]
  rw [h0, hrest]

/-- Claim C5 (amended): for every informed sub-block dimension,
`getInformedMeasure` is monotonically non-decreasing in the cost on
[minDist, ∞) and for every finite cost equals the closed-form
hyperellipsoid volume (unit-ball measure times the product of the radii);
whenever the dimension is at least 2 it moreover tends to 0 as the cost
tends to minDist from above.  (For dimension 1 with distinct foci the limit
is minDist, not 0; see the counterexample.) -/
theorem getInformedMeasure_monotone_limit {n : ℕ} [NeZero n] {U : Type}
    (S : Sampler n U) :
    MonotoneOn (fun c => getInformedMeasure S (Cost.finite c))
      (Set.Ici S.F.minDist)
    ∧ (∀ c, getInformedMeasure S (Cost.finite c)
        = unitNBallMeasure n * ∏ i, phsRadii S.F c i)
    ∧ (2 ≤ n → Filter.Tendsto (fun c => getInformedMeasure S (Cost.finite c))
        (nhdsWithin S.F.minDist (Set.Ioi S.F.minDist)) (nhds 0)) := by
  have h0 : (0 : ℝ) ≤ S.F.minDist := S.F.minDist_nonneg
  have hU : (0 : ℝ) ≤ unitNBallMeasure n := le_of_lt (unitNBallMeasure_pos n)
  refine ⟨?_, ?_, ?_⟩
  · intro a ha b hb hab
    simp only [Set.mem_Ici] at ha hb
    show phsMeasure n S.F.minDist a ≤ phsMeasure n S.F.minDist b
    unfold phsMeasure
    have hsq : Real.sqrt (a ^ 2 / 4 - S.F.minDist ^ 2 / 4)
        ≤ Real.sqrt (b ^ 2 / 4 - S.F.minDist ^ 2 / 4) := by
      apply Real.sqrt_le_sqrt
      nlinarith
    refine mul_le_mul ?_ ?_ ?_ ?_
    · exact mul_le_mul le_rfl (by linarith) (by linarith) hU
    · exact pow_le_pow_left₀ (Real.sqrt_nonneg _) hsq (n - 1)
    · exact pow_nonneg (Real.sqrt_nonneg _) (n - 1)
    · exact mul_nonneg hU (by linarith)
  · intro c
    show phsMeasure n S.F.minDist c = unitNBallMeasure n * ∏ i, phsRadii S.F c i
    rw [phsRadii_prod]
    unfold phsMeasure phsMinorRadius
    ring
  · intro hn
    have hcont : Continuous (fun c : ℝ => unitNBallMeasure n * (c / 2)
        * Real.sqrt (c ^ 2 / 4 - S.F.minDist ^ 2 / 4) ^ (n - 1)) := by
      refine Continuous.mul (Continuous.mul continuous_const
        (continuous_id.div_const 2)) ?_
      exact (Real.continuous_sqrt.comp
        (((continuous_pow 2).div_const 4).sub continuous_const)).pow (n - 1)
    have hval : unitNBallMeasure n * (S.F.minDist / 2)
        * Real.sqrt (S.F.minDist ^ 2 / 4 - S.F.minDist ^ 2 / 4) ^ (n - 1)
        = 0 := by
      rw [sub_self, Real.sqrt_zero, zero_pow (by omega : n - 1 ≠ 0), mul_zero]
    have ht := hcont.tendsto S.F.minDist
    rw [hval] at ht
    show Filter.Tendsto (fun c : ℝ => unitNBallMeasure n * (c / 2)
      * Real.sqrt (c ^ 2 / 4 - S.F.minDist ^ 2 / 4) ^ (n - 1))
      (nhdsWithin S.F.minDist (Set.Ioi S.F.minDist)) (nhds 0)
    exact ht.mono_left nhdsWithin_le_nhds

/-- Witness for the amended C5 at the concrete planar sampler, with the
dimension condition of the limit conjunct discharged. -/
theorem getInformedMeasure_monotone_limit_witness :
    MonotoneOn (fun c => getInformedMeasure testSampler (Cost.finite c))
      (Set.Ici testSampler.F.minDist)
    ∧ (∀ c, getInformedMeasure testSampler (Cost.finite c)
        = unitNBallMeasure 2 * ∏ i, phsRadii testSampler.F c i)
    ∧ Filter.Tendsto (fun c => getInformedMeasure testSampler (Cost.finite c))
        (nhdsWithin testSampler.F.minDist (Set.Ioi testSampler.F.minDist))
        (nhds 0) := by
  have h := getInformedMeasure_monotone_limit testSampler
  exact ⟨h.1, h.2.1, h.2.2 (by norm_num)⟩

/-! ## A concrete one-dimensional configuration (foci 0 and 10) -/

noncomputable section

/-- Foci at 0 and 10 on the line. -/
def lineFoci : Foci 1 := ⟨fun _ => 0, fun _ => 10⟩

/-- A concrete one-dimensional sampler over the line foci. -/
def lineSampler : Sampler 1 Unit :=
  ⟨lineFoci, 1, fun _ => True, 1, 1⟩

end

theorem lineFoci_minDist : lineFoci.minDist = 10 := by
  have h : Real.sqrt 100 = 10 := by
    rw [show (100 : ℝ) = 10 ^ 2 by norm_num,
      Real.sqrt_sq (by norm_num : (0 : ℝ) ≤ 10)]
  unfold Foci.minDist euclDist lineFoci
  rw [Fin.sum_univ_one]
  norm_num [h]

/-- Claim C5 counterexample: for a one-dimensional informed sub-block with
foci 0 and 10, the informed measure of cost c is c itself, so it tends to
minDist = 10, not 0, as c approaches minDist from above. -/
theorem getInformedMeasure_limit_counterexample :
    ¬ Filter.Tendsto (fun c => getInformedMeasure lineSampler (Cost.finite c))
        (nhdsWithin lineSampler.F.minDist (Set.Ioi lineSampler.F.minDist))
        (nhds 0) := by
  intro hcontra
  have hfun : (fun c => getInformedMeasure lineSampler (Cost.finite c))
      = fun c : ℝ => c := by
    funext c
    show phsMeasure 1 lineSampler.F.minDist c = c
    unfold phsMeasure
    rw [show (1 : ℕ) - 1 = 0 from rfl, pow_zero,
      show unitNBallMeasure 1 = 2 from rfl]
    ring
  rw [hfun] at hcontra
  have hid : Filter.Tendsto (fun c : ℝ => c)
      (nhdsWithin lineSampler.F.minDist (Set.Ioi lineSampler.F.minDist))
      (nhds lineSampler.F.minDist) :=
    (continuous_id.tendsto _).mono_left nhdsWithin_le_nhds
  have h0 : (0 : ℝ) = lineSampler.F.minDist :=
    tendsto_nhds_unique hcontra hid
  rw [show lineSampler.F = lineFoci from rfl, lineFoci_minDist] at h0
  norm_num at h0

/-- Claim C6: the heuristic solution cost of a state is the genuine
Euclidean metric distance from focus 1 to the state's projection onto the
informed sub-block plus the distance from that projection to focus 2. -/
theorem heuristicSolnCost_eq_dist {n : ℕ} {U : Type} (F : Foci n)
    (s : (Fin n → ℝ) × U) :
    heuristicSolnCost F s
      = dist ((WithLp.equiv 2 (Fin n → ℝ)).symm F.f1 : EuclideanSpace ℝ (Fin n))
          ((WithLp.equiv 2 (Fin n → ℝ)).symm s.1)
        + dist ((WithLp.equiv 2 (Fin n → ℝ)).symm s.1 : EuclideanSpace ℝ (Fin n))
          ((WithLp.equiv 2 (Fin n → ℝ)).symm F.f2) := by
  unfold heuristicSolnCost euclDist
  rw [EuclideanSpace.dist_eq, EuclideanSpace.dist_eq]
  congr 2 <;>
    exact Finset.sum_congr rfl fun i _ => by
      rw [WithLp.equiv_symm_pi_apply, WithLp.equiv_symm_pi_apply,
        Real.dist_eq, sq_abs]

/-- Claim C7: in the degenerate case where the transverse diameter equals
minDist exactly, all minor radii are 0, the construction involves no
division, and the transform of any closed-unit-ball point is still a valid
point lying on the segment between the two foci. -/
theorem phsTransform_degenerate_on_segment {n : ℕ} [NeZero n]
    {R : Matrix (Fin n) (Fin n) ℝ} (F : Foci n)
    (hcol : ∀ i, F.minDist * R i 0 = F.f2 i - F.f1 i)
    (b : Fin n → ℝ) (hb : ∑ j, b j ^ 2 ≤ 1) :
    (∀ j, j ≠ 0 → phsRadii F F.minDist j = 0)
    ∧ phsTransform R F F.minDist b ∈ segment ℝ F.f1 F.f2 := by
  have hminor : phsMinorRadius F F.minDist = 0 := by
    unfold phsMinorRadius
    rw [sub_self, Real.sqrt_zero]
  have hzero : ∀ j, j ≠ (0 : Fin n) → phsRadii F F.minDist j = 0 := by
    intro j hj
    unfold phsRadii
    rw [if_neg hj]
    exact hminor
  refine ⟨hzero, ?_⟩
  have hb0 : b 0 ^ 2 ≤ 1 := le_trans
    (Finset.single_le_sum (fun j _ => sq_nonneg (b j)) (Finset.mem_univ 0)) hb
  have habs : |b 0| ≤ 1 := by
    have h := Real.sqrt_le_sqrt hb0
    rwa [Real.sqrt_sq_eq_abs, Real.sqrt_one] at h
  obtain ⟨hlo, hhi⟩ := abs_le.mp habs
  refine ⟨(1 - b 0) / 2, (1 + b 0) / 2, by linarith, by linarith, by ring, ?_⟩
  funext i
  have hsum : R.mulVec (fun j => phsRadii F F.minDist j * b j) i
      = R i 0 * (F.minDist / 2 * b 0) := by
    show (∑ j, R i j * (phsRadii F F.minDist j * b j)) = _
    rw [Finset.sum_eq_single 0]
    · unfold phsRadii
      rw [if_pos rfl]
    · intro j _ hj
      rw [hzero j hj]
      ring
    · intro h0
      exact absurd (Finset.mem_univ 0) h0
  simp only [Pi.add_apply, Pi.smul_apply, smul_eq_mul]
  show (1 - b 0) / 2 * F.f1 i + (1 + b 0) / 2 * F.f2 i
    = phsTransform R F F.minDist b i
  unfold phsTransform Foci.centroid
  rw [hsum]
  linear_combination (-(b 0) / 2) * hcol i

/-- Witness for C7 at the concrete planar configuration with the boundary
ball point (1,0): the transform lands exactly on focus 2. -/
theorem phsTransform_degenerate_on_segment_witness :
    (∑ j, (![1, 0] : Fin 2 → ℝ) j ^ 2 ≤ 1)
    ∧ ((∀ j, j ≠ 0 → phsRadii testFoci testFoci.minDist j = 0)
      ∧ phsTransform (1 : Matrix (Fin 2) (Fin 2) ℝ) testFoci testFoci.minDist
          ![1, 0] ∈ segment ℝ testFoci.f1 testFoci.f2) := by
  have hb : (∑ j, (![1, 0] : Fin 2 → ℝ) j ^ 2 ≤ 1) := by
    rw [Fin.sum_univ_two]
    norm_num
  exact ⟨hb, phsTransform_degenerate_on_segment testFoci test_rot_col ![1, 0] hb⟩

/-- Claim C8: rebuilding the Ellipsoid Transform for the same cost value is
deterministic: starting from any two valid cached transform states, updating
both to the same cost yields the fresh build in both cases — identical
rotation and identical radii — and the cache invariant is preserved. -/
theorem updatePhs_deterministic {n : ℕ} [NeZero n] (F : Foci n)
    (R : Matrix (Fin n) (Fin n) ℝ) (s1 s2 : PhsState n) (d : ℝ)
    (h1 : phsValid F R s1) (h2 : phsValid F R s2) :
    updatePhs F R s1 d = buildPhs F R d
    ∧ updatePhs F R s2 d = buildPhs F R d
    ∧ (updatePhs F R s1 d).rot = (updatePhs F R s2 d).rot
    ∧ (updatePhs F R s1 d).radii = (updatePhs F R s2 d).radii
    ∧ phsValid F R (updatePhs F R s1 d) := by
  have key : ∀ s, phsValid F R s → updatePhs F R s d = buildPhs F R d := by
    intro s hs
    unfold updatePhs
    by_cases hc : s.lastCost = d
    · rw [if_pos hc]
      unfold phsValid at hs
      rw [hc] at hs
      exact hs
    · rw [if_neg hc]
  have k1 := key s1 h1
  have k2 := key s2 h2
  refine ⟨k1, k2, by rw [k1, k2], by rw [k1, k2], ?_⟩
  rw [k1]
  unfold phsValid
  rfl

/-- Witness for C8: two differently-seeded valid caches (built for costs 10
and 20) updated to the common cost 15 agree exactly. -/
theorem updatePhs_deterministic_witness :
    phsValid testFoci 1 (buildPhs testFoci 1 10)
    ∧ (updatePhs testFoci 1 (buildPhs testFoci 1 10) 15).rot
        = (updatePhs testFoci 1 (buildPhs testFoci 1 20) 15).rot
    ∧ (updatePhs testFoci 1 (buildPhs testFoci 1 10) 15).radii
        = (updatePhs testFoci 1 (buildPhs testFoci 1 20) 15).radii := by
  have h := updatePhs_deterministic testFoci 1 (buildPhs testFoci 1 10)
    (buildPhs testFoci 1 20) 15 rfl rfl
  exact ⟨rfl, h.2.2.1, h.2.2.2.1⟩

/-- Claim C10: `getInformedMeasure` does not take the declared bounds into
account: for every finite cost it returns the unclipped hyperellipsoid
measure — which at the concrete planar sampler (whole-space measure 1)
strictly exceeds the bounded space's measure — and only for the infinite
sentinel does it return the entire state space's measure. -/
theorem getInformedMeasure_ignores_bounds :
    (∀ (n : ℕ) (U : Type) (S : Sampler n U) (c : ℝ),
      getInformedMeasure S (Cost.finite c) = phsMeasure n S.F.minDist c)
    ∧ (∀ (n : ℕ) (U : Type) (S : Sampler n U),
      getInformedMeasure S Cost.infinite = S.spaceMeasure)
    ∧ testSampler.spaceMeasure
        < getInformedMeasure testSampler (Cost.finite 20) := by
  refine ⟨fun n U S c => rfl, fun n U S => rfl, ?_⟩
  show (1 : ℝ) < phsMeasure 2 testSampler.F.minDist 20
  rw [show testSampler.F = testFoci from rfl, testFoci_minDist]
  unfold phsMeasure
  rw [show (2 : ℕ) - 1 = 1 from rfl, pow_one,
    show (20 : ℝ) ^ 2 / 4 - 10 ^ 2 / 4 = 75 by norm_num]
  have hU2 : unitNBallMeasure 2 = Real.pi := by
    rw [show unitNBallMeasure 2
        = 2 * Real.pi / (((0 : ℕ) : ℝ) + 2) * unitNBallMeasure 0 from rfl,
      show unitNBallMeasure 0 = 1 from rfl]
    push_cast
    ring
  rw [hU2]
  have hpi : (3 : ℝ) < Real.pi := Real.pi_gt_three
  have hsq : (8 : ℝ) ≤ Real.sqrt 75 := by
    rw [show (8 : ℝ) = Real.sqrt 64 by
      rw [show (64 : ℝ) = 8 ^ 2 by norm_num,
        Real.sqrt_sq (by norm_num : (0 : ℝ) ≤ 8)]]
    exact Real.sqrt_le_sqrt (by norm_num)
  nlinarith [hpi, hsq]

end Ompl
